import Mathlib

/-!
A verification development for the geecache repository.

It embeds, as executable Lean definitions, the four core components of
the repository and proves the stated properties about them:

* package `lru` — the bounded eviction cache with LRU order
  (`Cache`, `Add`, `Get`, `RemoveOldest`);
* package `consistenthash` — the consistent hash ring
  (`Map`, `Add`, `Get`, together with Go's `sort.Search`);
* package `singleflight` — the call deduplicator (`Group.Do`), modelled
  as an interleaving transition system over the lock-delimited atomic
  sections of the Go code;
* `geecache.go` / `cache.go` / `byteview.go` — the cache-namespace
  orchestrator (`Group.Get`, `Group.load`, `Group.getLocally`) and the
  concurrency-safe wrapper around the LRU cache.

Modelling conventions: Go values are given value semantics, so the
doubly linked recency list of package `lru` becomes a Lean list whose
head is the most recently used entry (the front of the Go list) and
whose last element is the least recently used one (the back of the Go
list).  The `int64` byte counters become `Int`; byte slices and strings
become `String`, with `String.length` standing for Go's byte length
(they agree on the ASCII data used in the concrete instances below).
The optional eviction callback `OnEvicted` is modelled by returning the
list of evicted (key, value) pairs from each operation.  The `Value`
interface of package `lru` is modelled by a type parameter `V` together
with a length function `vlen : V → Nat` standing for the `Len()`
method.  Loops are written with an explicit structural fuel that
provably dominates the number of iterations the Go loop performs, so
every definition evaluates by reduction.
-/

namespace Lru

/-- One cache state of package `lru`: `maxBytes` and `nbytes` are the
`int64` fields of `Cache`; `entries` is the doubly linked list `ll`
(head = front = most recently used).  The map `cache` of the Go struct
is recoverable as lookup by key in `entries`, so it is not duplicated
here. -/
structure Cache (V : Type) where
  maxBytes : Int
  nbytes : Int
  entries : List (String × V)
  deriving DecidableEq

/-- Byte size that package `lru` accounts for one entry:
`len(key) + value.Len()`. -/
def entrySize {V : Type} (vlen : V → Nat) (e : String × V) : Int :=
  (e.1.length : Int) + (vlen e.2 : Int)

/-- Sum of `entrySize` over a list of entries. -/
def sumBytes {V : Type} (vlen : V → Nat) (l : List (String × V)) : Int :=
  (l.map (entrySize vlen)).sum

/-- The constructor `lru.New`: empty list, zero byte usage. -/
def new {V : Type} (maxBytes : Int) : Cache V :=
  ⟨maxBytes, 0, []⟩

/-- `Cache.RemoveOldest`: take the back of the recency list
(`ll.Back()`); if present, remove it, subtract its size from `nbytes`,
and report it (the report models the `OnEvicted` callback invocation).
If the list is empty nothing happens. -/
def removeOldest {V : Type} (vlen : V → Nat) (c : Cache V) :
    Cache V × Option (String × V) :=
  match c.entries.getLast? with
  | none => (c, none)
  | some e =>
    (⟨c.maxBytes, c.nbytes - entrySize vlen e, c.entries.dropLast⟩, some e)

/-- Fuelled unrolling of the eviction loop at the end of `Cache.Add`:
`for c.maxBytes != 0 && c.maxBytes < c.nbytes { c.RemoveOldest() }`,
collecting the evicted entries.  Each loop iteration of the Go code
removes one list element, so running with fuel `c.entries.length`
(see `evictLoop`) is exact.  The Go loop has no emptiness guard: on an
empty list with `maxBytes < nbytes` it would spin forever, a situation
unreachable from accounting-consistent states (where an empty cache has
`nbytes = 0`); the model stops when the fuel — the entry count — runs
out. -/
def evictN {V : Type} (vlen : V → Nat) :
    Nat → Cache V → Cache V × List (String × V)
  | 0, c => (c, [])
  | Nat.succ n, c =>
    if c.maxBytes ≠ 0 ∧ c.maxBytes < c.nbytes then
      let p := removeOldest vlen c
      let q := evictN vlen n p.1
      (q.1, p.2.toList ++ q.2)
    else
      (c, [])

/-- The eviction loop of `Cache.Add`, with enough fuel to run until the
guard `maxBytes != 0 && maxBytes < nbytes` fails or the list empties. -/
def evictLoop {V : Type} (vlen : V → Nat) (c : Cache V) :
    Cache V × List (String × V) :=
  evictN vlen c.entries.length c

/-- `Cache.Get`: look the key up; on a hit move the entry to the front
of the recency list (`ll.MoveToFront`) and return its value; on a miss
return nothing and leave the state unchanged. -/
def get {V : Type} (c : Cache V) (key : String) : Option V × Cache V :=
  match c.entries.find? (fun e => e.1 == key) with
  | some e =>
    (some e.2,
     ⟨c.maxBytes, c.nbytes, e :: c.entries.eraseP (fun x => x.1 == key)⟩)
  | none => (none, c)

/-- `Cache.Add`: if the key exists, move its entry to the front, keep
the stored key, replace the value, and apply the value-size delta
(new value size − old value size) to `nbytes`; otherwise push a fresh
entry to the front and add `len(key) + value.Len()` to `nbytes`.
Either way, run the eviction loop afterwards. -/
def add {V : Type} (vlen : V → Nat) (c : Cache V) (key : String) (value : V) :
    Cache V × List (String × V) :=
  match c.entries.find? (fun e => e.1 == key) with
  | some e =>
    evictLoop vlen
      ⟨c.maxBytes, c.nbytes + (vlen value : Int) - (vlen e.2 : Int),
       (e.1, value) :: c.entries.eraseP (fun x => x.1 == key)⟩
  | none =>
    evictLoop vlen
      ⟨c.maxBytes, c.nbytes + (key.length : Int) + (vlen value : Int),
       (key, value) :: c.entries⟩

/-- `Cache.Len`: the entry count. -/
def len {V : Type} (c : Cache V) : Nat :=
  c.entries.length

/-- Accounting consistency: the recorded byte usage equals the summed
sizes of the live entries. -/
def wf {V : Type} (vlen : V → Nat) (c : Cache V) : Prop :=
  c.nbytes = sumBytes vlen c.entries

/-- Apply a list of `add` operations in order (used to speak about
arbitrary sequences of put operations). -/
def addAll {V : Type} (vlen : V → Nat) (c : Cache V)
    (ops : List (String × V)) : Cache V :=
  ops.foldl (fun acc op => (add vlen acc op.1 op.2).1) c

/-- One cache operation, for reachability statements. -/
inductive Op (V : Type) where
  | add (key : String) (value : V)
  | get (key : String)
  | removeOldest

/-- Apply one operation to a cache state. -/
def applyOp {V : Type} (vlen : V → Nat) (c : Cache V) : Op V → Cache V
  | Op.add key value => (add vlen c key value).1
  | Op.get key => (get c key).2
  | Op.removeOldest => (removeOldest vlen c).1

/-- Run a list of operations from a state. -/
def runOps {V : Type} (vlen : V → Nat) (c : Cache V) (ops : List (Op V)) :
    Cache V :=
  ops.foldl (applyOp vlen) c

/-- A cache state is reachable when some operation sequence produces it
from a freshly constructed cache. -/
def Reachable {V : Type} (vlen : V → Nat) (c : Cache V) : Prop :=
  ∃ (maxBytes : Int) (ops : List (Op V)), c = runOps vlen (new maxBytes) ops

end Lru

namespace Consistenthash

/-- Fuelled unrolling of the binary-search loop of Go's `sort.Search`
(package `sort`): with `i, j := 0, n`, while `i < j` probe
`h := (i+j)/2` and set `j = h` when `f(h)` holds, `i = h+1` otherwise;
the answer is `i`.  Each iteration shrinks `j - i`, so fuel `n`
dominates the iteration count (see `sortSearch`). -/
def searchGo (f : Nat → Bool) : Nat → Nat → Nat → Nat
  | 0, i, _ => i
  | Nat.succ fuel, i, j =>
    if i < j then
      let m := (i + j) / 2
      if f m then searchGo f fuel i m else searchGo f fuel (m + 1) j
    else i

/-- Go's `sort.Search n f`: the smallest index in `[0, n)` at which the
(monotone) predicate `f` holds, or `n` when there is none. -/
def sortSearch (n : Nat) (f : Nat → Bool) : Nat :=
  searchGo f n 0 n

/-- The consistent-hash ring of package `consistenthash`.  The Go
`Hash func(data []byte) uint32` becomes `hash : String → Nat` (the ring
stores `int(hash(...))`, always the nonnegative image of a `uint32`);
`keys` is the slice of virtual-node hashes; the Go map
`hashMap map[int]string` becomes a function to `Option String`, with
lookups defaulting to `""` exactly as a Go map read does.  `New` takes
the already-resolved hash function (the Go constructor substitutes
`crc32.ChecksumIEEE`, an external package, for a nil argument). -/
structure Map where
  hash : String → Nat
  replicas : Nat
  keys : List Nat
  hashMap : Nat → Option String

/-- The constructor `consistenthash.New`. -/
def New (replicas : Nat) (hash : String → Nat) : Map :=
  ⟨hash, replicas, [], fun _ => none⟩

/-- One inner-loop iteration of `Map.Add`: hash the virtual key
`strconv.Itoa(i) + key`, append it to the slice, and point it at the
real node in the map. -/
def addVirtual (hash : String → Nat) (key : String)
    (st : List Nat × (Nat → Option String)) (i : Nat) :
    List Nat × (Nat → Option String) :=
  let h := hash (toString i ++ key)
  (st.1 ++ [h], fun x => if x = h then some key else st.2 x)

/-- `Map.Add`: for every peer, add `replicas` virtual nodes, then sort
the hash slice ascending (`sort.Ints`). -/
def Map.Add (m : Map) (peers : List String) : Map :=
  let st := peers.foldl
    (fun st key => (List.range m.replicas).foldl (addVirtual m.hash key) st)
    (m.keys, m.hashMap)
  ⟨m.hash, m.replicas, st.1.insertionSort (· ≤ ·), st.2⟩

/-- `Map.Get`: empty ring returns `""`; otherwise binary-search for the
first virtual-node hash that is at least the key's hash and wrap the
index around modulo the ring size. -/
def Map.Get (m : Map) (key : String) : String :=
  if m.keys.length = 0 then ""
  else
    let h := m.hash key
    let idx := sortSearch m.keys.length (fun i => decide (h ≤ m.keys.getD i 0))
    (m.hashMap (m.keys.getD (idx % m.keys.length) 0)).getD ""

/-- Modelled from the spec's words for the ring lookup rule, for
comparison with `Map.Get`: an empty result when no peers are
configured; otherwise the peer mapped to the first virtual-node hash
that is ≥ the key's hash in the ascending-sorted list, wrapping around
to the peer owning the smallest virtual-node hash when the key's hash
exceeds every virtual-node hash. -/
def specLookup (m : Map) (key : String) : String :=
  if m.keys = [] then ""
  else
    let h := m.hash key
    match m.keys.find? (fun k => decide (h ≤ k)) with
    | some k => (m.hashMap k).getD ""
    | none =>
      match m.keys.min? with
      | some k0 => (m.hashMap k0).getD ""
      | none => ""

/-- A concrete two-virtual-node ring with a length hash, for concrete
instances. -/
def demoRing : Map :=
  ⟨fun s => s.length, 2, [3, 5],
   fun h => if h = 3 then some "ab" else if h = 5 then some "cdef" else none⟩

end Consistenthash

namespace Singleflight

/-- Where one caller of `Group.Do` stands, in terms of the
lock-delimited sections of `singleflight.go`: `start` — has not yet
entered the first locked section; `running` — registered a fresh
`call` in `g.m` and is executing `fn` outside the lock; `waiting` —
found an in-flight `call` for the key and is blocked in `c.wg.Wait()`;
`returned r` — `Do` has returned with result `r`. -/
inductive Phase (R : Type) where
  | start
  | running
  | waiting
  | returned (r : R)
  deriving DecidableEq

/-- Global state of `n` concurrent `Do(key, fn)` callers for one key.
`flight` models `g.m[key]`: `none` — absent; `some none` — a `call`
registered whose `fn` has not completed (`wg` counter still 1);
`some (some r)` — completed with result `r` (`wg.Done()` called).
`execCount` counts executions of `fn`. -/
structure SFState (n : Nat) (R : Type) where
  flight : Option (Option R)
  execCount : Nat
  phases : Fin n → Phase R

/-- Initial state: no in-flight call, no executions, everyone about to
call `Do`. -/
def initState (n : Nat) (R : Type) : SFState n R :=
  ⟨none, 0, fun _ => Phase.start⟩

/-- Interleaving semantics of `Group.Do` for one key, during one window
of continuous concurrent demand (that is, every caller reaches the
first locked section while the window's `call` entry, once created, is
still in `g.m`; the deletion of the entry after completion ends the
window and is therefore not a step here).  The parameter `f` gives the
result of the `k`-th execution of `fn`, so that distinct executions are
observably distinct.  The four steps are the atomic sections of the Go
code: `register` — first locked section finds no call and installs one;
`found` — first locked section finds a call and will wait on it;
`finish` — the registering caller completes `fn`, stores the result on
the call and signals `wg.Done()`; `wake` — a waiter passes `wg.Wait()`
and reads the stored result. -/
inductive Step {n : Nat} {R : Type} (f : Nat → R) :
    SFState n R → SFState n R → Prop where
  | register (s : SFState n R) (i : Fin n)
      (hp : s.phases i = Phase.start) (hf : s.flight = none) :
      Step f s ⟨some none, s.execCount, Function.update s.phases i Phase.running⟩
  | found (s : SFState n R) (i : Fin n) (o : Option R)
      (hp : s.phases i = Phase.start) (hf : s.flight = some o) :
      Step f s ⟨s.flight, s.execCount, Function.update s.phases i Phase.waiting⟩
  | finish (s : SFState n R) (i : Fin n)
      (hp : s.phases i = Phase.running) :
      Step f s ⟨some (some (f s.execCount)), s.execCount + 1,
        Function.update s.phases i (Phase.returned (f s.execCount))⟩
  | wake (s : SFState n R) (i : Fin n) (r : R)
      (hp : s.phases i = Phase.waiting) (hf : s.flight = some (some r)) :
      Step f s ⟨s.flight, s.execCount, Function.update s.phases i (Phase.returned r)⟩

/-- Reachability along any interleaving of the above steps. -/
def Reaches {n : Nat} {R : Type} (f : Nat → R) :
    SFState n R → SFState n R → Prop :=
  Relation.ReflTransGen (Step f)

/-- The identity result stream, for concrete instances: execution `k`
of `fn` yields `k`. -/
def sfDemoF : Nat → Nat := fun k => k

/-- The final state of a concrete two-caller window: the call completed
with the first execution's result, `fn` ran once, both callers
returned 0. -/
def sfDemoFinal : SFState 2 Nat :=
  ⟨some (some 0), 1, fun _ => Phase.returned 0⟩

/-- The inductive invariant tying `g.m[key]` to the caller phases. -/
def Inv {n : Nat} {R : Type} (f : Nat → R) (s : SFState n R) : Prop :=
  (s.flight = none → s.execCount = 0 ∧ ∀ i, s.phases i = Phase.start) ∧
  (s.flight = some none →
    s.execCount = 0 ∧
    (∃ i, s.phases i = Phase.running ∧
      ∀ j, s.phases j = Phase.running → j = i) ∧
    ∀ i r, s.phases i ≠ Phase.returned r) ∧
  (∀ r, s.flight = some (some r) →
    r = f 0 ∧ s.execCount = 1 ∧
    (∀ i, s.phases i ≠ Phase.running) ∧
    ∀ i r2, s.phases i = Phase.returned r2 → r2 = f 0)

end Singleflight

namespace Geecache

/-- `ByteView` of `byteview.go`: an immutable wrapper around bytes
(bytes modelled as `String`). -/
structure ByteView where
  b : String
  deriving DecidableEq

/-- `cloneBytes`: a defensive copy; under value semantics the copy is
the value itself. -/
def cloneBytes (b : String) : String := b

/-- `ByteView.Len`. -/
def ByteView.Len (v : ByteView) : Nat := v.b.length

/-- `ByteView.ByteSlice`: returns a copy of the underlying bytes. -/
def ByteView.ByteSlice (v : ByteView) : String := cloneBytes v.b

/-- The concurrency-safe wrapper `cache` of `cache.go`: a lazily
initialised LRU cache (`lru == nil` until the first `add`) plus the
configured capacity.  The mutex serialises operations; under the
value-semantics model each operation is already atomic. -/
structure GCache where
  lru : Option (Lru.Cache ByteView)
  cacheBytes : Int
  deriving DecidableEq

/-- `cache.add`: create the LRU store on first use, then delegate.  The
eviction report is dropped: `cache.go` installs no `OnEvicted`
callback. -/
def GCache.add (c : GCache) (key : String) (value : ByteView) : GCache :=
  match c.lru with
  | none => ⟨some (Lru.add ByteView.Len (Lru.new c.cacheBytes) key value).1, c.cacheBytes⟩
  | some l => ⟨some (Lru.add ByteView.Len l key value).1, c.cacheBytes⟩

/-- `cache.get`: nothing before the store exists, else delegate
(.`Get` refreshes recency on a hit). -/
def GCache.get (c : GCache) (key : String) : Option ByteView × GCache :=
  match c.lru with
  | none => (none, c)
  | some l =>
    let r := Lru.get l key
    (r.1, ⟨some r.2, c.cacheBytes⟩)

/-- Which collaborator capabilities a `Group` call path invokes.  The
constructors name the loader (`Getter.Get`), the call deduplicator
(`singleflight.Group.Do`), the consistent-hash ring lookup and a remote
peer fetch, so that wiring claims about the miss path can be stated.
The load path of `geecache.go` as written only ever performs
`loaderCall`. -/
inductive Event where
  | loaderCall (key : String)
  | dedupDo (key : String)
  | ringLookup (key : String)
  | peerFetch (peer : String) (key : String)
  deriving DecidableEq

/-- The cache namespace `Group` of `geecache.go` (fields at lines
14–18: `name`, `getter`, `mainCache` — the struct has no peer picker
and no singleflight group).  The `Getter` capability becomes a function
from key to bytes-or-error. -/
structure Group where
  name : String
  getter : String → Except String String
  mainCache : GCache

/-- `Group.populateCache`: write the loaded value back into the main
cache. -/
def Group.populateCache (g : Group) (key : String) (value : ByteView) :
    Group :=
  ⟨g.name, g.getter, g.mainCache.add key value⟩

/-- `Group.getLocally`: invoke the loader; on error wrap it as
`getter failed: ...` and leave the state alone; on success wrap the
bytes in a `ByteView` and populate the cache.  The event list records
the loader invocation. -/
def Group.getLocally (g : Group) (key : String) :
    Except String ByteView × Group × List Event :=
  match g.getter key with
  | Except.error e =>
    (Except.error ("getter failed: " ++ e), g, [Event.loaderCall key])
  | Except.ok bytes =>
    let value : ByteView := ⟨cloneBytes bytes⟩
    (Except.ok value, g.populateCache key value, [Event.loaderCall key])

/-- `Group.load`: as written in `geecache.go` it forwards directly to
`getLocally`. -/
def Group.load (g : Group) (key : String) :
    Except String ByteView × Group × List Event :=
  g.getLocally key

/-- `Group.Get`: reject the empty key, then try the main cache, then
fall through to `load`. -/
def Group.Get (g : Group) (key : String) :
    Except String ByteView × Group × List Event :=
  if key = "" then (Except.error "key is required", g, [])
  else
    let r := g.mainCache.get key
    match r.1 with
    | some v => (Except.ok v, ⟨g.name, g.getter, r.2⟩, [])
    | none => Group.load ⟨g.name, g.getter, r.2⟩ key

/-- A concrete group with an always-succeeding loader and an empty
cache, for concrete instances. -/
def demoGroupOk : Group :=
  ⟨"g", fun _ => Except.ok "v", ⟨none, 10⟩⟩

/-- A concrete group with an always-failing loader and an empty cache,
for concrete instances. -/
def demoGroupErr : Group :=
  ⟨"g", fun _ => Except.error "boom", ⟨none, 10⟩⟩

end Geecache

namespace Lru

/-- Entry sizes are nonnegative. -/
theorem entrySize_nonneg {V : Type} (vlen : V → Nat) (e : String × V) :
    0 ≤ entrySize vlen e := by
  simp only [entrySize]
  positivity

/-- Summing over a cons. -/
theorem sumBytes_cons {V : Type} (vlen : V → Nat) (e : String × V)
    (l : List (String × V)) :
    sumBytes vlen (e :: l) = entrySize vlen e + sumBytes vlen l := by
  simp [sumBytes]

/-- Summing over an append. -/
theorem sumBytes_append {V : Type} (vlen : V → Nat)
    (l₁ l₂ : List (String × V)) :
    sumBytes vlen (l₁ ++ l₂) = sumBytes vlen l₁ + sumBytes vlen l₂ := by
  simp [sumBytes]

/-- Dropping the last element subtracts its size from the sum. -/
theorem sumBytes_dropLast {V : Type} (vlen : V → Nat)
    (l : List (String × V)) (e : String × V) (h : l.getLast? = some e) :
    sumBytes vlen l = sumBytes vlen l.dropLast + entrySize vlen e := by
  conv_lhs => rw [← List.dropLast_append_getLast? e h]
  rw [sumBytes_append]
  simp [sumBytes]

/-- Erasing the entry that `find?` located subtracts its size from the
sum. -/
theorem sumBytes_eraseP {V : Type} (vlen : V → Nat)
    (p : String × V → Bool) :
    ∀ (l : List (String × V)) (e : String × V), l.find? p = some e →
      sumBytes vlen (l.eraseP p) = sumBytes vlen l - entrySize vlen e
  | [], e, h => by simp [List.find?] at h
  | x :: xs, e, h => by
    by_cases hp : p x
    · rw [List.find?_cons_of_pos _ hp, Option.some_inj] at h
      rw [List.eraseP_cons_of_pos hp, sumBytes_cons, h]
      ring
    · rw [List.find?_cons_of_neg _ hp] at h
      rw [List.eraseP_cons_of_neg hp, sumBytes_cons, sumBytes_cons,
        sumBytes_eraseP vlen p xs e h]
      ring

/-- `RemoveOldest` preserves accounting consistency. -/
theorem removeOldest_wf {V : Type} (vlen : V → Nat) (c : Cache V)
    (h : wf vlen c) : wf vlen (removeOldest vlen c).1 := by
  rcases hL : c.entries.getLast? with _ | e
  · simpa [removeOldest, hL] using h
  · have hs := sumBytes_dropLast vlen c.entries e hL
    simp only [wf] at h ⊢
    simp [removeOldest, hL, h, hs]

/-- `RemoveOldest` leaves the capacity alone. -/
theorem removeOldest_maxBytes {V : Type} (vlen : V → Nat) (c : Cache V) :
    (removeOldest vlen c).1.maxBytes = c.maxBytes := by
  rcases hL : c.entries.getLast? with _ | e <;> simp [removeOldest, hL]

/-- `RemoveOldest` always ends with the recency list shorn of its last
element (when the list was empty, that is again the empty list). -/
theorem removeOldest_entries {V : Type} (vlen : V → Nat) (c : Cache V) :
    (removeOldest vlen c).1.entries = c.entries.dropLast := by
  rcases hL : c.entries.getLast? with _ | e
  · have hnil : c.entries = [] := by
      cases hE : c.entries with
      | nil => rfl
      | cons x xs => rw [hE] at hL; simp at hL
    simp [removeOldest, hL, hnil]
  · simp [removeOldest, hL]

/-- The eviction loop leaves the capacity alone. -/
theorem evictN_maxBytes {V : Type} (vlen : V → Nat) :
    ∀ (n : Nat) (c : Cache V), (evictN vlen n c).1.maxBytes = c.maxBytes
  | 0, c => rfl
  | Nat.succ n, c => by
    by_cases hg : c.maxBytes ≠ 0 ∧ c.maxBytes < c.nbytes
    · simp only [evictN, if_pos hg]
      rw [evictN_maxBytes vlen n (removeOldest vlen c).1,
        removeOldest_maxBytes]
    · simp [evictN, if_neg hg]

/-- The eviction loop preserves accounting consistency. -/
theorem evictN_wf {V : Type} (vlen : V → Nat) :
    ∀ (n : Nat) (c : Cache V), wf vlen c → wf vlen (evictN vlen n c).1
  | 0, _, h => h
  | Nat.succ n, c, h => by
    by_cases hg : c.maxBytes ≠ 0 ∧ c.maxBytes < c.nbytes
    · simp only [evictN, if_pos hg]
      exact evictN_wf vlen n _ (removeOldest_wf vlen c h)
    · simpa [evictN, if_neg hg] using h

/-- When the guard is already false the eviction loop does nothing. -/
theorem evictN_noop {V : Type} (vlen : V → Nat) (n : Nat) (c : Cache V)
    (h : ¬(c.maxBytes ≠ 0 ∧ c.maxBytes < c.nbytes)) :
    evictN vlen n c = (c, []) := by
  cases n with
  | zero => rfl
  | succ n => simp [evictN, if_neg h]

/-- With zero capacity the eviction loop does nothing (capacity 0 means
unlimited). -/
theorem evictN_maxZero {V : Type} (vlen : V → Nat) (n : Nat) (c : Cache V)
    (h : c.maxBytes = 0) : evictN vlen n c = (c, []) := by
  apply evictN_noop
  simp [h]

/-- Given fuel at least the entry count, the eviction loop stops only
once the capacity is zero, the usage fits, or the cache is empty. -/
theorem evictN_post {V : Type} (vlen : V → Nat) :
    ∀ (n : Nat) (c : Cache V), c.entries.length ≤ n →
      c.maxBytes = 0 ∨ (evictN vlen n c).1.nbytes ≤ c.maxBytes ∨
        (evictN vlen n c).1.entries = []
  | 0, c, hn => by
    right; right
    simpa [evictN] using List.length_eq_zero.mp (Nat.le_zero.mp hn)
  | Nat.succ n, c, hn => by
    by_cases hg : c.maxBytes ≠ 0 ∧ c.maxBytes < c.nbytes
    · have hstep : (evictN vlen (Nat.succ n) c).1 =
          (evictN vlen n (removeOldest vlen c).1).1 := by
        simp [evictN, if_pos hg]
      have hlen : (removeOldest vlen c).1.entries.length ≤ n := by
        rw [removeOldest_entries, List.length_dropLast]
        omega
      have hmax : (removeOldest vlen c).1.maxBytes = c.maxBytes :=
        removeOldest_maxBytes vlen c
      rcases evictN_post vlen n (removeOldest vlen c).1 hlen with h | h | h
      · left; rw [← hmax]; exact h
      · right; left; rw [hstep, ← hmax]; exact h
      · right; right; rw [hstep]; exact h
    · rw [evictN_noop vlen (Nat.succ n) c hg]
      rcases not_and_or.mp hg with h0 | hlt
      · exact Or.inl (not_not.mp h0)
      · exact Or.inr (Or.inl (not_lt.mp hlt))

/-- The eviction loop only ever shortens the recency list from the
back: its result is a front segment of the input. -/
theorem evictN_take {V : Type} (vlen : V → Nat) :
    ∀ (n : Nat) (c : Cache V),
      ∃ m, (evictN vlen n c).1.entries = c.entries.take m
  | 0, c => ⟨c.entries.length, by simp [evictN]⟩
  | Nat.succ n, c => by
    by_cases hg : c.maxBytes ≠ 0 ∧ c.maxBytes < c.nbytes
    · have hstep : (evictN vlen (Nat.succ n) c).1 =
          (evictN vlen n (removeOldest vlen c).1).1 := by
        simp [evictN, if_pos hg]
      rcases evictN_take vlen n (removeOldest vlen c).1 with ⟨m, hm⟩
      refine ⟨min m (c.entries.length - 1), ?_⟩
      rw [hstep, hm, removeOldest_entries, List.dropLast_eq_take,
        List.take_take]
    · exact ⟨c.entries.length, by rw [evictN_noop vlen (Nat.succ n) c hg]
                                  simp⟩

/-- If a nonempty cache is completely emptied by the eviction loop,
then even its most recently used entry was evicted, so the capacity is
smaller than that single entry's size. -/
theorem evictN_nil_oversized {V : Type} (vlen : V → Nat) :
    ∀ (n : Nat) (c : Cache V) (e : String × V) (rest : List (String × V)),
      wf vlen c → c.maxBytes ≠ 0 → c.entries = e :: rest →
      (evictN vlen n c).1.entries = [] →
      c.maxBytes < entrySize vlen e
  | 0, c, e, rest, _, _, hE, hnil => by
    rw [evictN] at hnil
    rw [hE] at hnil
    simp at hnil
  | Nat.succ n, c, e, rest, hwf, hmax, hE, hnil => by
    by_cases hg : c.maxBytes ≠ 0 ∧ c.maxBytes < c.nbytes
    · cases rest with
      | nil =>
        have hsum : c.nbytes = entrySize vlen e := by
          rw [wf, hE, sumBytes_cons] at hwf
          simpa [sumBytes] using hwf
        rw [← hsum]
        exact hg.2
      | cons r rs =>
        have hstep : (evictN vlen (Nat.succ n) c).1 =
            (evictN vlen n (removeOldest vlen c).1).1 := by
          simp [evictN, if_pos hg]
        have hE2 : (removeOldest vlen c).1.entries = e :: (r :: rs).dropLast := by
          rw [removeOldest_entries, hE, List.dropLast_cons₂]
        have hw2 : wf vlen (removeOldest vlen c).1 := removeOldest_wf vlen c hwf
        have hm2 : (removeOldest vlen c).1.maxBytes = c.maxBytes :=
          removeOldest_maxBytes vlen c
        have := evictN_nil_oversized vlen n (removeOldest vlen c).1 e ((r :: rs).dropLast)
          hw2 (by rw [hm2]; exact hmax) hE2 (by rw [← hstep]; exact hnil)
        rw [hm2] at this
        exact this
    · rw [evictN_noop vlen (Nat.succ n) c hg] at hnil
      rw [hE] at hnil
      simp at hnil

/-- `evictLoop` specialisation of `evictN_post`. -/
theorem evictLoop_post {V : Type} (vlen : V → Nat) (c : Cache V) :
    c.maxBytes = 0 ∨ (evictLoop vlen c).1.nbytes ≤ c.maxBytes ∨
      (evictLoop vlen c).1.entries = [] :=
  evictN_post vlen c.entries.length c le_rfl

/-- `Get` preserves accounting consistency. -/
theorem get_wf {V : Type} (vlen : V → Nat) (c : Cache V) (key : String)
    (h : wf vlen c) : wf vlen (get c key).2 := by
  rcases hF : c.entries.find? (fun e => e.1 == key) with _ | e
  · simpa [get, hF] using h
  · have hs := sumBytes_eraseP vlen (fun x => x.1 == key) c.entries e hF
    simp only [wf] at h ⊢
    simp only [get, hF]
    rw [sumBytes_cons, hs, h]
    ring

/-- A missed `Get` does not change the cache at all. -/
theorem get_miss_eq {V : Type} (c : Cache V) (key : String)
    (h : (get c key).1 = none) : (get c key).2 = c := by
  rcases hF : c.entries.find? (fun e => e.1 == key) with _ | e
  · simp [get, hF]
  · simp [get, hF] at h

/-- Unfolding `Add` when the key is present (with the found entry
given in components). -/
theorem add_eq_of_find_some {V : Type} (vlen : V → Nat) (c : Cache V)
    (key : String) (value : V) (ek : String) (ev : V)
    (hF : c.entries.find? (fun x => x.1 == key) = some (ek, ev)) :
    add vlen c key value = evictLoop vlen
      ⟨c.maxBytes, c.nbytes + (vlen value : Int) - (vlen ev : Int),
        (ek, value) :: c.entries.eraseP (fun x => x.1 == key)⟩ := by
  simp [add, hF]

/-- Unfolding `Add` when the key is absent. -/
theorem add_eq_of_find_none {V : Type} (vlen : V → Nat) (c : Cache V)
    (key : String) (value : V)
    (hF : c.entries.find? (fun x => x.1 == key) = none) :
    add vlen c key value = evictLoop vlen
      ⟨c.maxBytes, c.nbytes + (key.length : Int) + (vlen value : Int),
        (key, value) :: c.entries⟩ := by
  simp [add, hF]

/-- `Add` decomposes as the eviction loop applied to the front-inserted
state: some tail `rest` exists with the new entry `(key, value)` at the
front and, on accounting-consistent input, a byte counter that already
sums the new list. -/
theorem add_decomp {V : Type} (vlen : V → Nat) (c : Cache V) (key : String)
    (value : V) :
    ∃ (nb : Int) (rest : List (String × V)),
      add vlen c key value = evictLoop vlen ⟨c.maxBytes, nb, (key, value) :: rest⟩ ∧
      (wf vlen c → nb = sumBytes vlen ((key, value) :: rest)) := by
  rcases hF : c.entries.find? (fun e => e.1 == key) with _ | e
  · refine ⟨c.nbytes + (key.length : Int) + (vlen value : Int), c.entries,
      by simp [add, hF], fun hw => ?_⟩
    rw [sumBytes_cons, hw, entrySize]
    ring
  · have hk : e.1 = key := by
      have := List.find?_some hF
      simpa using this
    refine ⟨c.nbytes + (vlen value : Int) - (vlen e.2 : Int),
      c.entries.eraseP (fun x => x.1 == key), ?_, fun hw => ?_⟩
    · simp only [add, hF]
      rw [hk]
    have hs := sumBytes_eraseP vlen (fun x => x.1 == key) c.entries e hF
    rw [sumBytes_cons, hs, hw, entrySize, entrySize, hk]
    ring

/-- `Add` preserves accounting consistency. -/
theorem add_wf {V : Type} (vlen : V → Nat) (c : Cache V) (key : String)
    (value : V) (h : wf vlen c) : wf vlen (add vlen c key value).1 := by
  obtain ⟨nb, rest, hEq, hNb⟩ := add_decomp vlen c key value
  rw [hEq]
  exact evictN_wf vlen _ _ (hNb h)

/-- `Add` leaves the capacity alone. -/
theorem add_maxBytes {V : Type} (vlen : V → Nat) (c : Cache V) (key : String)
    (value : V) : (add vlen c key value).1.maxBytes = c.maxBytes := by
  obtain ⟨nb, rest, hEq, _⟩ := add_decomp vlen c key value
  rw [hEq, evictLoop, evictN_maxBytes]

/-- After `Add`, either the capacity is zero (unlimited), the usage
fits under the capacity, or the cache has been emptied. -/
theorem add_post {V : Type} (vlen : V → Nat) (c : Cache V) (key : String)
    (value : V) :
    c.maxBytes = 0 ∨ (add vlen c key value).1.nbytes ≤ c.maxBytes ∨
      (add vlen c key value).1.entries = [] := by
  obtain ⟨nb, rest, hEq, _⟩ := add_decomp vlen c key value
  rw [hEq]
  simpa using evictLoop_post vlen ⟨c.maxBytes, nb, (key, value) :: rest⟩

/-- After `Add`, the recency list is empty or carries the added entry
in front. -/
theorem add_entries_head {V : Type} (vlen : V → Nat) (c : Cache V)
    (key : String) (value : V) :
    (add vlen c key value).1.entries = [] ∨
      ∃ t, (add vlen c key value).1.entries = (key, value) :: t := by
  obtain ⟨nb, rest, hEq, _⟩ := add_decomp vlen c key value
  rw [hEq]
  obtain ⟨m, hm⟩ := evictN_take vlen ((key, value) :: rest).length
    ⟨c.maxBytes, nb, (key, value) :: rest⟩
  rw [evictLoop]
  cases m with
  | zero => left; simpa using hm
  | succ m => right; exact ⟨rest.take m, by simpa using hm⟩

/-- Every state reachable by operations from a fresh cache is
accounting-consistent. -/
theorem runOps_wf {V : Type} (vlen : V → Nat) :
    ∀ (ops : List (Op V)) (c : Cache V), wf vlen c →
      wf vlen (runOps vlen c ops)
  | [], _, h => h
  | op :: ops, c, h => by
    have h1 : wf vlen (applyOp vlen c op) := by
      cases op with
      | add key value => exact add_wf vlen c key value h
      | get key => exact get_wf vlen c key h
      | removeOldest => exact removeOldest_wf vlen c h
    exact runOps_wf vlen ops (applyOp vlen c op) h1

/-- Reachable states are accounting-consistent. -/
theorem reachable_wf {V : Type} (vlen : V → Nat) (c : Cache V)
    (h : Reachable vlen c) : wf vlen c := by
  obtain ⟨M, ops, rfl⟩ := h
  exact runOps_wf vlen ops (new M) rfl

/-- Evicting out of a one-entry cache that exceeds its nonzero capacity
removes that entry. -/
theorem evictLoop_singleton {V : Type} (vlen : V → Nat) (M nb : Int)
    (key : String) (value : V) (hM : M ≠ 0) (hlt : M < nb) :
    evictLoop vlen ⟨M, nb, [(key, value)]⟩ =
      (⟨M, nb - entrySize vlen (key, value), []⟩, [(key, value)]) := by
  simp [evictLoop, evictN, removeOldest, hM, hlt]

/-- The invariant behind the capacity bound: `addAll` keeps accounting
consistency, the capacity, and the bound. -/
theorem addAll_invariant {V : Type} (vlen : V → Nat) (C : Int) (hC : 0 < C) :
    ∀ (ops : List (String × V)) (c : Cache V), wf vlen c →
      c.maxBytes = C → c.nbytes ≤ C →
      wf vlen (addAll vlen c ops) ∧ (addAll vlen c ops).maxBytes = C ∧
        (addAll vlen c ops).nbytes ≤ C
  | [], c, hw, hm, hn => ⟨hw, hm, hn⟩
  | (k, v) :: ops, c, hw, hm, hn => by
    have hstep : addAll vlen c ((k, v) :: ops) =
        addAll vlen (add vlen c k v).1 ops := rfl
    have hw1 : wf vlen (add vlen c k v).1 := add_wf vlen c k v hw
    have hm1 : (add vlen c k v).1.maxBytes = C := by
      rw [add_maxBytes, hm]
    have hn1 : (add vlen c k v).1.nbytes ≤ C := by
      rcases add_post vlen c k v with h0 | hle | hnil
      · rw [hm] at h0; omega
      · rw [hm] at hle; exact hle
      · rw [wf, hnil] at hw1
        rw [hw1]
        simpa [sumBytes] using le_of_lt hC
    rw [hstep]
    exact addAll_invariant vlen C hC ops (add vlen c k v).1 hw1 hm1 hn1

/-- C1: for every capacity C > 0 and every sequence of put (`Add`)
operations on a fresh bounded eviction cache, after each operation the
tracked byte usage `nbytes` — which equals the total key+value bytes of
the live entries — is at most C.  Quantifying over all operation lists
covers every intermediate point of a longer sequence. -/
theorem capacity_bound {V : Type} (vlen : V → Nat) (C : Int) (hC : 0 < C)
    (ops : List (String × V)) :
    (addAll vlen (new C) ops).nbytes ≤ C ∧
      sumBytes vlen (addAll vlen (new C) ops).entries ≤ C := by
  obtain ⟨hw, _, hn⟩ := addAll_invariant vlen C hC ops (new C) rfl rfl
    (le_of_lt hC)
  exact ⟨hn, by rw [← hw]; exact hn⟩

/-- Witness for `capacity_bound` at capacity 9 and three inserts. -/
theorem capacity_bound_witness :
    (0 : Int) < 9 ∧
      ((Lru.addAll String.length (Lru.new 9)
          [("A", "xyz"), ("B", "xyz"), ("C", "xyz")]).nbytes ≤ 9 ∧
        Lru.sumBytes String.length (Lru.addAll String.length (Lru.new 9)
          [("A", "xyz"), ("B", "xyz"), ("C", "xyz")]).entries ≤ 9) :=
  ⟨by decide, capacity_bound String.length 9 (by decide)
    [("A", "xyz"), ("B", "xyz"), ("C", "xyz")]⟩

/-- C4: every eviction removes the least recently touched entry (the
back of the recency list), and both put and get refresh recency.
Concretely with capacity 9 holding two (key, "xyz") entries of size 4:
inserting A, B, C evicts A — `get A` misses while `get B` and `get C`
hit — and performing `get A` before the overflowing insert of C saves
A, so the next-least-recently-used entry B is evicted instead. -/
theorem lru_eviction_order :
    (∀ (vlen : String → Nat) (c : Cache String),
        (removeOldest vlen c).2 = c.entries.getLast?) ∧
    ((get (addAll String.length (new 9)
        [("A", "xyz"), ("B", "xyz"), ("C", "xyz")]) "A").1 = none ∧
      (get (addAll String.length (new 9)
        [("A", "xyz"), ("B", "xyz"), ("C", "xyz")]) "B").1 = some "xyz" ∧
      (get (addAll String.length (new 9)
        [("A", "xyz"), ("B", "xyz"), ("C", "xyz")]) "C").1 = some "xyz") ∧
    ((get (add String.length
        ((get (addAll String.length (new 9) [("A", "xyz"), ("B", "xyz")])
          "A").2) "C" "xyz").1 "B").1 = none ∧
      (get (add String.length
        ((get (addAll String.length (new 9) [("A", "xyz"), ("B", "xyz")])
          "A").2) "C" "xyz").1 "A").1 = some "xyz" ∧
      (get (add String.length
        ((get (addAll String.length (new 9) [("A", "xyz"), ("B", "xyz")])
          "A").2) "C" "xyz").1 "C").1 = some "xyz") := by
  refine ⟨fun vlen c => ?_, by decide, by decide⟩
  rcases hL : c.entries.getLast? with _ | e <;> simp [removeOldest, hL]

/-- C9: the byte-accounting invariant `nbytes = Σ (key length + value
length)` over live entries is preserved by `Add` (fresh key or
overwrite with the value-size delta), by `Get`, and by
`RemoveOldest`. -/
theorem byte_accounting {V : Type} (vlen : V → Nat) (c : Cache V)
    (key : String) (value : V) (h : wf vlen c) :
    wf vlen (add vlen c key value).1 ∧ wf vlen (get c key).2 ∧
      wf vlen (removeOldest vlen c).1 :=
  ⟨add_wf vlen c key value h, get_wf vlen c key h, removeOldest_wf vlen c h⟩

/-- Witness for `byte_accounting` at a one-entry cache, overwriting the
existing key with a longer value. -/
theorem byte_accounting_witness :
    Lru.wf String.length (⟨9, 4, [("A", "xyz")]⟩ : Lru.Cache String) ∧
      (Lru.wf String.length
          (Lru.add String.length ⟨9, 4, [("A", "xyz")]⟩ "A" "xyzzy").1 ∧
        Lru.wf String.length (Lru.get ⟨9, 4, [("A", "xyz")]⟩ "A").2 ∧
        Lru.wf String.length
          (Lru.removeOldest String.length ⟨9, 4, [("A", "xyz")]⟩).1) :=
  ⟨rfl, byte_accounting String.length ⟨9, 4, [("A", "xyz")]⟩ "A" "xyzzy" rfl⟩

/-- C8: a single entry whose own size exceeds a positive capacity is
still admitted by `Add` and immediately evicted by the eviction loop:
from an empty cache the result is the empty cache again, the eviction
report carries exactly that (key, value) — the callback data — and a
`Get` on the key right after the put misses. -/
theorem oversized_entry {V : Type} (vlen : V → Nat) (C : Int) (key : String)
    (value : V) (hC : 0 < C) (hover : C < entrySize vlen (key, value)) :
    add vlen (new C) key value = (⟨C, 0, []⟩, [(key, value)]) ∧
      (get (add vlen (new C) key value).1 key).1 = none := by
  have h1 : add vlen (new C) key value =
      evictLoop vlen
        ⟨C, 0 + (key.length : Int) + (vlen value : Int), [(key, value)]⟩ := by
    simp [add, new, List.find?]
  have h2 := evictLoop_singleton vlen C
    (0 + (key.length : Int) + (vlen value : Int)) key value
    (by omega) (by rw [entrySize] at hover; push_cast at hover ⊢; omega)
  have hz : 0 + (key.length : Int) + (vlen value : Int) -
      entrySize vlen (key, value) = 0 := by
    simp only [entrySize]
    ring
  have hEq : add vlen (new C) key value = (⟨C, 0, []⟩, [(key, value)]) := by
    rw [h1, h2, hz]
  exact ⟨hEq, by rw [hEq]; rfl⟩


/-- Witness for `oversized_entry`: capacity 1, entry ("a", "bb") of
size 3. -/
theorem oversized_entry_witness :
    (0 : Int) < 1 ∧ 1 < Lru.entrySize String.length ("a", "bb") ∧
      (Lru.add String.length (Lru.new 1) "a" "bb" =
          (⟨1, 0, []⟩, [("a", "bb")]) ∧
        (Lru.get (Lru.add String.length (Lru.new 1) "a" "bb").1 "a").1 =
          none) :=
  ⟨by decide, by decide,
    oversized_entry String.length 1 "a" "bb" (by decide) (by decide)⟩

/-- C10 counterexample: from the reachable state left by adding the
oversized entry ("a", "bb") to a fresh cache of capacity 1, a second
identical `Add` again triggers an eviction (its eviction report is
nonempty), refuting the claim that the second `Add` of a pair never
triggers an eviction. -/
theorem add_twice_evicts_again :
    (Lru.add String.length
      (Lru.add String.length (Lru.new 1) "a" "bb").1 "a" "bb").2 ≠ [] := by
  decide

/-- C10 amended: on every reachable cache state, performing `Add(k, v)`
twice yields exactly the same state as performing it once — entry
count, byte usage and recency order included; and provided the entry
survived the first `Add` (the cache is then nonempty, with that entry
in front), the second `Add` triggers no eviction.  (When the entry is
larger than a nonzero capacity it does not survive its own `Add`, and
the second `Add` re-admits and re-evicts it, reporting an eviction
again — the state is nevertheless the same.) -/
theorem add_idempotent_amended {V : Type} (vlen : V → Nat) (c : Cache V)
    (key : String) (value : V) (h : Reachable vlen c) :
    (add vlen (add vlen c key value).1 key value).1 =
        (add vlen c key value).1 ∧
      ((add vlen c key value).1.entries ≠ [] →
        (add vlen (add vlen c key value).1 key value).2 = []) := by
  have hwf := reachable_wf vlen c h
  obtain ⟨nb, rest, hEq, hNb⟩ := add_decomp vlen c key value
  have hwf1 : wf vlen (add vlen c key value).1 := add_wf vlen c key value hwf
  have hmax1 : (add vlen c key value).1.maxBytes = c.maxBytes :=
    add_maxBytes vlen c key value
  rcases add_entries_head vlen c key value with hnil | ⟨t, hcons⟩
  · have hn0 : (add vlen c key value).1.nbytes = 0 := by
      rw [wf, hnil] at hwf1
      simpa [sumBytes] using hwf1
    have hr1 : (add vlen c key value).1 = ⟨c.maxBytes, 0, []⟩ := by
      conv_lhs => rw [show (add vlen c key value).1 =
        ⟨(add vlen c key value).1.maxBytes, (add vlen c key value).1.nbytes,
          (add vlen c key value).1.entries⟩ from rfl]
      rw [hmax1, hn0, hnil]
    have hm0 : c.maxBytes ≠ 0 := by
      intro h0
      have hz : evictLoop vlen ⟨c.maxBytes, nb, (key, value) :: rest⟩ =
          (⟨c.maxBytes, nb, (key, value) :: rest⟩, []) :=
        evictN_maxZero vlen _ _ h0
      rw [hEq, hz] at hnil
      simp at hnil
    have hover : c.maxBytes < entrySize vlen (key, value) := by
      have hent : (evictN vlen ((key, value) :: rest).length
          ⟨c.maxBytes, nb, (key, value) :: rest⟩).1.entries = [] := by
        rw [hEq] at hnil
        exact hnil
      exact evictN_nil_oversized vlen ((key, value) :: rest).length
        ⟨c.maxBytes, nb, (key, value) :: rest⟩ (key, value) rest
        (hNb hwf) hm0 rfl hent
    have h2 : add vlen (⟨c.maxBytes, 0, []⟩ : Cache V) key value =
        evictLoop vlen
          ⟨c.maxBytes, 0 + (key.length : Int) + (vlen value : Int),
            [(key, value)]⟩ :=
      add_eq_of_find_none vlen ⟨c.maxBytes, 0, []⟩ key value rfl
    have hover2 : c.maxBytes < (key.length : Int) + (vlen value : Int) := by
      rw [entrySize] at hover
      exact hover
    have h3 := evictLoop_singleton vlen c.maxBytes
      (0 + (key.length : Int) + (vlen value : Int)) key value hm0
      (by omega)
    have hz : 0 + (key.length : Int) + (vlen value : Int) -
        entrySize vlen (key, value) = 0 := by
      simp only [entrySize]
      ring
    constructor
    · rw [hr1, h2, h3, hz]
    · intro hne
      exact absurd hnil hne
  · have hfind : (add vlen c key value).1.entries.find?
        (fun e => e.1 == key) = some (key, value) := by
      rw [hcons, List.find?_cons_of_pos _ (by simp)]
    have h2 : add vlen (add vlen c key value).1 key value =
        evictLoop vlen
          ⟨(add vlen c key value).1.maxBytes,
            (add vlen c key value).1.nbytes + (vlen value : Int) -
              (vlen value : Int),
            (key, value) :: (add vlen c key value).1.entries.eraseP
              (fun x => x.1 == key)⟩ :=
      add_eq_of_find_some vlen (add vlen c key value).1 key value key value
        hfind
    have hstate :
        (⟨(add vlen c key value).1.maxBytes,
          (add vlen c key value).1.nbytes + (vlen value : Int) -
            (vlen value : Int),
          (key, value) :: (add vlen c key value).1.entries.eraseP
            (fun x => x.1 == key)⟩ : Cache V) = (add vlen c key value).1 := by
      have ha : (add vlen c key value).1.nbytes + (vlen value : Int) -
          (vlen value : Int) = (add vlen c key value).1.nbytes := by
        ring
      have hb : (key, value) :: (add vlen c key value).1.entries.eraseP
          (fun x => x.1 == key) = (add vlen c key value).1.entries := by
        rw [hcons, List.eraseP_cons_of_pos (by simp)]
      rw [ha, hb]
    have hguard : ¬((add vlen c key value).1.maxBytes ≠ 0 ∧
        (add vlen c key value).1.maxBytes <
          (add vlen c key value).1.nbytes) := by
      rcases add_post vlen c key value with h0 | hle | hnil2
      · rw [hmax1, h0]
        simp
      · rw [hmax1]
        intro hcontra
        exact absurd hle (not_le.mpr hcontra.2)
      · rw [hcons] at hnil2
        simp at hnil2
    have h3 : evictLoop vlen (add vlen c key value).1 =
        ((add vlen c key value).1, []) :=
      evictN_noop vlen _ _ hguard
    rw [h2, hstate, h3]
    exact ⟨rfl, fun _ => rfl⟩

/-- Witness for `add_idempotent_amended`: the fresh capacity-9 cache is
reachable (empty operation list), and adding ("A", "xyz") twice equals
adding it once, with no eviction from the second `Add`. -/
theorem add_idempotent_amended_witness :
    Lru.Reachable String.length (Lru.new 9) ∧
      ((Lru.add String.length
          (Lru.add String.length (Lru.new 9) "A" "xyz").1 "A" "xyz").1 =
        (Lru.add String.length (Lru.new 9) "A" "xyz").1 ∧
      ((Lru.add String.length (Lru.new 9) "A" "xyz").1.entries ≠ [] →
        (Lru.add String.length
          (Lru.add String.length (Lru.new 9) "A" "xyz").1 "A" "xyz").2 =
          [])) :=
  ⟨⟨9, [], rfl⟩, add_idempotent_amended String.length (Lru.new 9) "A" "xyz"
    ⟨9, [], rfl⟩⟩

end Lru

namespace Geecache

/-- A missed `cache.get` does not change the wrapper state. -/
theorem gcache_get_miss (c : GCache) (key : String)
    (h : (c.get key).1 = none) : (c.get key).2 = c := by
  rcases c with ⟨lru?, cb⟩
  cases lru? with
  | none => rfl
  | some l =>
    simp only [GCache.get] at h ⊢
    rw [Lru.get_miss_eq l key h]

/-- `getLocally` always records exactly one loader invocation. -/
theorem getLocally_events (g : Group) (key : String) :
    (Group.getLocally g key).2.2 = [Event.loaderCall key] := by
  rcases h : g.getter key with e | bytes <;> simp [Group.getLocally, h]

/-- C7: `Get` with the empty key is rejected immediately: the input
error is returned, the group state — its local cache included — is
untouched, and no collaborator event occurs, so the loader is never
invoked. -/
theorem empty_key_rejected (g : Group) :
    Group.Get g "" = (Except.error "key is required", g, []) := rfl

/-- C3 counterexample: at a concrete group whose cache misses the
non-empty key "k", the miss path of `Group.Get` involves neither a
deduplicator `Do` nor a ring lookup: the one collaborator event emitted
is the loader invocation. -/
theorem miss_path_no_dedup_counterexample :
    ("k" : String) ≠ "" ∧
      ((demoGroupOk.mainCache.get "k").1 = none) ∧
      Event.dedupDo "k" ∉ (Group.Get demoGroupOk "k").2.2 ∧
      Event.ringLookup "k" ∉ (Group.Get demoGroupOk "k").2.2 :=
  ⟨by decide, rfl, by decide, by decide⟩

/-- C3 amended: for every group state and non-empty key that misses the
local cache, `Get` resolves via `load`, which forwards directly to
`getLocally` — the local loader path; no call deduplicator and no
consistent-hash ring is consulted (the `Group` struct of `geecache.go`
has neither), so the collaborator events are exactly one loader
invocation. -/
theorem miss_path_direct_local_load (g : Group) (key : String)
    (hk : key ≠ "") (hmiss : (g.mainCache.get key).1 = none) :
    Group.Get g key = Group.getLocally g key ∧
      (Group.Get g key).2.2 = [Event.loaderCall key] := by
  have hst : (g.mainCache.get key).2 = g.mainCache :=
    gcache_get_miss g.mainCache key hmiss
  have h1 : Group.Get g key = Group.load g key := by
    simp only [Group.Get, if_neg hk, hmiss, hst]
  refine ⟨h1, ?_⟩
  rw [h1]
  exact getLocally_events g key

/-- Witness for `miss_path_direct_local_load` at the concrete group
with an empty cache and key "k". -/
theorem miss_path_direct_local_load_witness :
    ("k" : String) ≠ "" ∧
      ((demoGroupOk.mainCache.get "k").1 = none) ∧
      (Group.Get demoGroupOk "k" = Group.getLocally demoGroupOk "k" ∧
        (Group.Get demoGroupOk "k").2.2 = [Event.loaderCall "k"]) :=
  ⟨by decide, rfl, miss_path_direct_local_load demoGroupOk "k" (by decide) rfl⟩

/-- C6: when the loader fails for a key not in the local cache, `Get`
returns the loader's error wrapped with the load-failure context, the
group state — in particular the cache — is unchanged, and the cache
still holds no entry for the key; only the loader invocation event
occurred, and no value is returned. -/
theorem loader_failure_atomic (g : Group) (key e : String)
    (hk : key ≠ "") (hmiss : (g.mainCache.get key).1 = none)
    (herr : g.getter key = Except.error e) :
    Group.Get g key =
        (Except.error ("getter failed: " ++ e), g, [Event.loaderCall key]) ∧
      ((Group.Get g key).2.1.mainCache.get key).1 = none := by
  have hst : (g.mainCache.get key).2 = g.mainCache :=
    gcache_get_miss g.mainCache key hmiss
  have hEq : Group.Get g key =
      (Except.error ("getter failed: " ++ e), g, [Event.loaderCall key]) := by
    simp only [Group.Get, if_neg hk, hmiss, hst, Group.load, Group.getLocally,
      herr]
  exact ⟨hEq, by rw [hEq]; exact hmiss⟩

/-- Witness for `loader_failure_atomic` at the concrete failing-loader
group and key "missing". -/
theorem loader_failure_atomic_witness :
    ("missing" : String) ≠ "" ∧
      ((demoGroupErr.mainCache.get "missing").1 = none) ∧
      (demoGroupErr.getter "missing" = Except.error "boom") ∧
      (Group.Get demoGroupErr "missing" =
          (Except.error ("getter failed: " ++ "boom"), demoGroupErr,
            [Event.loaderCall "missing"]) ∧
        ((Group.Get demoGroupErr "missing").2.1.mainCache.get "missing").1 =
          none) :=
  ⟨by decide, rfl, rfl,
    loader_failure_atomic demoGroupErr "missing" "boom" (by decide) rfl rfl⟩

end Geecache

namespace Consistenthash

/-- Go's `sort.Search` loop: with enough fuel and a predicate monotone
on `[i, j)`, the loop returns the least index of `[i, j)` satisfying
the predicate, or `j` when none does. -/
theorem searchGo_spec (f : Nat → Bool) :
    ∀ (fuel i j : Nat), j - i ≤ fuel → i ≤ j →
      (∀ a b, i ≤ a → a ≤ b → b < j → f a = true → f b = true) →
      i ≤ searchGo f fuel i j ∧ searchGo f fuel i j ≤ j ∧
        (∀ k, i ≤ k → k < searchGo f fuel i j → f k = false) ∧
        (searchGo f fuel i j < j → f (searchGo f fuel i j) = true)
  | 0, i, j, hf, hij, _ => by
    have hji : j = i := by omega
    subst hji
    simp only [searchGo]
    exact ⟨le_rfl, le_rfl, fun k hk1 hk2 => absurd hk2 (by omega),
      fun h => absurd h (by omega)⟩
  | Nat.succ fuel, i, j, hf, hij, hmono => by
    by_cases hij2 : i < j
    · have hm1 : i ≤ (i + j) / 2 := by omega
      have hm2 : (i + j) / 2 < j := by omega
      rcases hfm : f ((i + j) / 2) with _ | _
      · have hrec := searchGo_spec f fuel ((i + j) / 2 + 1) j (by omega)
          (by omega) (fun a b ha hab hb => hmono a b (by omega) hab hb)
        simp only [searchGo, hij2, if_true, hfm, Bool.false_eq_true, if_false]
        obtain ⟨h1, h2, h3, h4⟩ := hrec
        refine ⟨by omega, h2, ?_, h4⟩
        intro k hk1 hk2
        by_cases hkm : k ≤ (i + j) / 2
        · rcases hfk : f k with _ | _
          · rfl
          · have := hmono k ((i + j) / 2) hk1 hkm hm2 hfk
            rw [this] at hfm
            exact absurd hfm (by simp)
        · exact h3 k (by omega) hk2
      · have hrec := searchGo_spec f fuel i ((i + j) / 2) (by omega) hm1
          (fun a b ha hab hb => hmono a b ha hab (by omega))
        simp only [searchGo, hij2, if_true, hfm]
        obtain ⟨h1, h2, h3, h4⟩ := hrec
        refine ⟨h1, by omega, h3, ?_⟩
        intro hlt
        by_cases hr : searchGo f fuel i ((i + j) / 2) < (i + j) / 2
        · exact h4 hr
        · have hr2 : searchGo f fuel i ((i + j) / 2) = (i + j) / 2 := by omega
          rw [hr2]
          exact hfm
    · have hji : j = i := by omega
      subst hji
      simp only [searchGo, hij2, if_false]
      exact ⟨le_rfl, le_rfl, fun k hk1 hk2 => absurd hk2 (by omega),
        fun h => h.elim⟩

/-- In an ascending-sorted list, positions are monotone under `getD`. -/
theorem sorted_getD_mono (l : List Nat) (hs : l.Sorted (· ≤ ·))
    (a b : Nat) (hab : a ≤ b) (hb : b < l.length) :
    l.getD a 0 ≤ l.getD b 0 := by
  rcases eq_or_lt_of_le hab with rfl | hlt
  · exact le_rfl
  · have ha : a < l.length := by omega
    have := List.pairwise_iff_get.mp hs ⟨a, ha⟩ ⟨b, hb⟩ hlt
    rw [List.getD_eq_getElem l 0 ha, List.getD_eq_getElem l 0 hb]
    simpa [List.get_eq_getElem] using this

/-- `find?` returns the element at the least satisfying index. -/
theorem find?_eq_getD_of_first (p : Nat → Bool) :
    ∀ (l : List Nat) (r : Nat), r < l.length →
      (∀ k, k < r → p (l.getD k 0) = false) → p (l.getD r 0) = true →
      l.find? p = some (l.getD r 0)
  | [], r, hr, _, _ => by simp at hr
  | x :: xs, 0, hr, hfirst, hp => by
    rw [List.getD_cons_zero] at hp ⊢
    rw [List.find?_cons_of_pos _ hp]
  | x :: xs, Nat.succ r, hr, hfirst, hp => by
    have hx : p x = false := by
      have := hfirst 0 (Nat.succ_pos r)
      rwa [List.getD_cons_zero] at this
    rw [List.getD_cons_succ] at hp
    rw [List.find?_cons_of_neg _ (by simp [hx]), List.getD_cons_succ]
    exact find?_eq_getD_of_first p xs r (by simpa using hr)
      (fun k hk => by
        have := hfirst (k + 1) (by omega)
        rwa [List.getD_cons_succ] at this) hp

/-- `find?` misses when no index satisfies the predicate. -/
theorem find?_eq_none_of_all (p : Nat → Bool) (l : List Nat)
    (h : ∀ k, k < l.length → p (l.getD k 0) = false) : l.find? p = none := by
  rw [List.find?_eq_none]
  intro x hx hpx
  obtain ⟨i, hi⟩ := List.mem_iff_get.mp hx
  have hk := h i.1 i.2
  rw [List.getD_eq_getElem l 0 i.2] at hk
  rw [← hi, List.get_eq_getElem] at hpx
  rw [hk] at hpx
  exact absurd hpx (by simp)

/-- Folding `min` over elements no smaller than the accumulator keeps
the accumulator. -/
theorem foldl_min_of_le (x : Nat) :
    ∀ (xs : List Nat), (∀ y ∈ xs, x ≤ y) → xs.foldl min x = x
  | [], _ => rfl
  | y :: ys, h => by
    rw [List.foldl_cons, min_eq_left (h y (by simp))]
    exact foldl_min_of_le x ys (fun z hz => h z (by simp [hz]))

/-- The minimum of a nonempty ascending-sorted list is its head. -/
theorem sorted_min?_eq_head (x : Nat) (xs : List Nat)
    (hs : (x :: xs).Sorted (· ≤ ·)) : (x :: xs).min? = some x := by
  have hx : ∀ y ∈ xs, x ≤ y := (List.sorted_cons.mp hs).1
  simp [List.min?, foldl_min_of_le x xs hx]

/-- C5: the ring lookup rule.  Every ring built by `Map.Add` keeps its
virtual-node hashes ascending-sorted; and on every ring state with
sorted hashes, `Map.Get` returns the empty string when no peers are
configured, and otherwise the peer mapped to the first virtual-node
hash ≥ the key's hash, wrapping around — modulo arithmetic on the
index — to the peer owning the smallest virtual-node hash when the
key's hash exceeds all of them (`specLookup` states that rule in the
spec's words). -/
theorem ring_lookup_rule :
    (∀ (m : Map) (peers : List String),
        ((Map.Add m peers).keys).Sorted (· ≤ ·)) ∧
    (∀ (m : Map) (key : String), m.keys.Sorted (· ≤ ·) →
        Map.Get m key = specLookup m key) := by
  constructor
  · intro m peers
    exact List.sorted_insertionSort (· ≤ ·) _
  · intro m key hs
    by_cases hN : m.keys = []
    · simp [Map.Get, specLookup, hN]
    · have hlen : 0 < m.keys.length := List.length_pos.mpr hN
      have hmono : ∀ a b, 0 ≤ a → a ≤ b → b < m.keys.length →
          decide (m.hash key ≤ m.keys.getD a 0) = true →
          decide (m.hash key ≤ m.keys.getD b 0) = true := by
        intro a b _ hab hb ha
        simp only [decide_eq_true_eq] at ha ⊢
        exact le_trans ha (sorted_getD_mono m.keys hs a b hab hb)
      obtain ⟨h1, h2, h3, h4⟩ := searchGo_spec
        (fun i => decide (m.hash key ≤ m.keys.getD i 0)) m.keys.length 0
        m.keys.length (by omega) (by omega) hmono
      by_cases hr : searchGo (fun i => decide (m.hash key ≤ m.keys.getD i 0))
          m.keys.length 0 m.keys.length < m.keys.length
      · have hfind := find?_eq_getD_of_first
          (fun k => decide (m.hash key ≤ k)) m.keys
          (searchGo (fun i => decide (m.hash key ≤ m.keys.getD i 0))
            m.keys.length 0 m.keys.length) hr
          (fun k hk => h3 k (by omega) hk) (h4 hr)
        simp only [Map.Get, specLookup, if_neg hN, if_neg (by omega : ¬ m.keys.length = 0),
          sortSearch, hfind, Nat.mod_eq_of_lt hr]
      · have hrn : searchGo (fun i => decide (m.hash key ≤ m.keys.getD i 0))
            m.keys.length 0 m.keys.length = m.keys.length := by omega
        have hfindn := find?_eq_none_of_all
          (fun k => decide (m.hash key ≤ k)) m.keys
          (fun k hk => h3 k (by omega) (by omega))
        rcases hK : m.keys with _ | ⟨x, xs⟩
        · exact absurd hK hN
        · have hmin : m.keys.min? = some x := by
            rw [hK]
            exact sorted_min?_eq_head x xs (hK ▸ hs)
          simp only [Map.Get, specLookup, if_neg hN,
            if_neg (by omega : ¬ m.keys.length = 0), sortSearch, hfindn,
            hrn, Nat.mod_self, hmin]
          rw [hK]
          rfl

/-- Witness for `ring_lookup_rule` at the concrete sorted ring, with a
key whose hash (7) exceeds every virtual-node hash, exercising the
wraparound case. -/
theorem ring_lookup_rule_witness :
    demoRing.keys.Sorted (· ≤ ·) ∧
      Map.Get demoRing "xxxxxxx" = specLookup demoRing "xxxxxxx" :=
  ⟨by decide, ring_lookup_rule.2 demoRing "xxxxxxx" (by decide)⟩

end Consistenthash

namespace Singleflight

/-- The invariant holds at the initial state. -/
theorem inv_init (n : Nat) (R : Type) (f : Nat → R) : Inv f (initState n R) := by
  refine ⟨fun _ => ⟨rfl, fun i => rfl⟩, fun hc => ?_, fun r hc => ?_⟩
  · exact absurd hc (by simp [initState])
  · exact absurd hc (by simp [initState])

/-- Each interleaving step preserves the invariant. -/
theorem inv_step {n : Nat} {R : Type} (f : Nat → R) (s s2 : SFState n R)
    (hstep : Step f s s2) (hinv : Inv f s) : Inv f s2 := by
  obtain ⟨hN, hR, hD⟩ := hinv
  cases hstep with
  | register i hp hf =>
    dsimp only [Inv]
    obtain ⟨hc, hall⟩ := hN hf
    refine ⟨fun hc2 => absurd hc2 (by simp), fun _ => ⟨hc, ⟨i, ?_, ?_⟩, ?_⟩,
      fun r hc2 => absurd hc2 (by simp)⟩
    · rw [Function.update_same]
    · intro j hj
      by_cases hij : j = i
      · exact hij
      · rw [Function.update_noteq hij, hall j] at hj
        exact absurd hj (by simp)
    · intro i2 r
      by_cases hi2 : i2 = i
      · rw [hi2, Function.update_same]
        simp
      · rw [Function.update_noteq hi2, hall i2]
        simp
  | found i o hp hf =>
    dsimp only [Inv]
    cases o with
    | none =>
      obtain ⟨hc, ⟨w, hw, huniq⟩, hnr⟩ := hR hf
      refine ⟨fun hc2 => ?_, fun _ => ⟨hc, ⟨w, ?_, ?_⟩, ?_⟩, fun r hc2 => ?_⟩
      · rw [hf] at hc2
        exact absurd hc2 (by simp)
      · have hwi : w ≠ i := by
          intro hEq
          rw [hEq, hp] at hw
          exact absurd hw (by simp)
        rw [Function.update_noteq hwi]
        exact hw
      · intro j hj
        by_cases hij : j = i
        · rw [hij, Function.update_same] at hj
          exact absurd hj (by simp)
        · rw [Function.update_noteq hij] at hj
          exact huniq j hj
      · intro i2 r
        by_cases hi2 : i2 = i
        · rw [hi2, Function.update_same]
          simp
        · rw [Function.update_noteq hi2]
          exact hnr i2 r
      · rw [hf] at hc2
        exact absurd hc2 (by simp)
    | some r0 =>
      obtain ⟨hr0, hcnt, hnorun, hret⟩ := hD r0 hf
      refine ⟨fun hc2 => ?_, fun hc2 => ?_, fun r hc2 => ?_⟩
      · rw [hf] at hc2
        exact absurd hc2 (by simp)
      · rw [hf] at hc2
        exact absurd hc2 (by simp)
      · rw [hf] at hc2
        have hrr : r = r0 := by
          injection hc2 with h1
          injection h1 with h2
          exact h2.symm
        subst hrr
        refine ⟨hr0, hcnt, ?_, ?_⟩
        · intro i2
          by_cases hi2 : i2 = i
          · rw [hi2, Function.update_same]
            simp
          · rw [Function.update_noteq hi2]
            exact hnorun i2
        · intro i2 r2
          by_cases hi2 : i2 = i
          · rw [hi2, Function.update_same]
            simp
          · rw [Function.update_noteq hi2]
            exact hret i2 r2
  | finish i hp =>
    dsimp only [Inv]
    have hfl : s.flight = some none := by
      rcases hflight : s.flight with _ | o
      · have h2 := (hN hflight).2 i
        rw [hp] at h2
        exact absurd h2 (by simp)
      · cases o with
        | none => rfl
        | some r0 =>
          exact absurd hp ((hD r0 hflight).2.2.1 i)
    obtain ⟨hc, ⟨w, hw, huniq⟩, hnr⟩ := hR hfl
    refine ⟨fun hc2 => absurd hc2 (by simp), fun hc2 => absurd hc2 (by simp),
      fun r hc2 => ?_⟩
    have hr : r = f 0 := by
      have h1 : some (some (f s.execCount)) = some (some r) := hc2
      injection h1 with h2
      injection h2 with h3
      rw [← h3, hc]
    refine ⟨hr, by rw [hc], ?_, ?_⟩
    · intro i2
      by_cases hi2 : i2 = i
      · rw [hi2, Function.update_same]
        simp
      · rw [Function.update_noteq hi2]
        intro hrun
        have hwid := huniq i2 hrun
        have hwi : w = i := (huniq i hp).symm
        rw [← hwi] at hi2
        exact hi2 hwid
    · intro i2 r2
      by_cases hi2 : i2 = i
      · rw [hi2, Function.update_same]
        intro hEq
        injection hEq with h2
        rw [← h2, hc]
      · rw [Function.update_noteq hi2]
        intro hEq
        exact absurd hEq (hnr i2 r2)
  | wake i r hp hf =>
    dsimp only [Inv]
    obtain ⟨hr0, hcnt, hnorun, hret⟩ := hD r hf
    refine ⟨fun hc2 => ?_, fun hc2 => ?_, fun r2 hc2 => ?_⟩
    · rw [hf] at hc2
      exact absurd hc2 (by simp)
    · rw [hf] at hc2
      exact absurd hc2 (by simp)
    · rw [hf] at hc2
      have hrr : r2 = r := by
        injection hc2 with h1
        injection h1 with h2
        exact h2.symm
      subst hrr
      refine ⟨hr0, hcnt, ?_, ?_⟩
      · intro i2
        by_cases hi2 : i2 = i
        · rw [hi2, Function.update_same]
          simp
        · rw [Function.update_noteq hi2]
          exact hnorun i2
      · intro i2 rr
        by_cases hi2 : i2 = i
        · rw [hi2, Function.update_same]
          intro hEq
          injection hEq with h2
          rw [← h2]
          exact hr0
        · rw [Function.update_noteq hi2]
          exact hret i2 rr

/-- The invariant holds at every state reachable from the initial
one. -/
theorem inv_reaches {n : Nat} {R : Type} (f : Nat → R) (s : SFState n R)
    (h : Reaches f (initState n R) s) : Inv f s := by
  induction h with
  | refl => exact inv_init n R f
  | tail hsteps hstep ih => exact inv_step f _ _ hstep ih

/-- C2: within one window of continuous concurrent demand, when all of
N ≥ 1 overlapping `Do(key, fn)` callers have returned, `fn` executed
exactly once and every caller returned the result of that single (the
zeroth) execution — the identical result for all of them. -/
theorem dedup_exactly_once {n : Nat} {R : Type} (f : Nat → R)
    (s : SFState n R) (hn : 1 ≤ n)
    (hreach : Reaches f (initState n R) s)
    (hdone : ∀ i : Fin n, ∃ r, s.phases i = Phase.returned r) :
    s.execCount = 1 ∧
      ∀ (i : Fin n) (r : R), s.phases i = Phase.returned r → r = f 0 := by
  obtain ⟨hN, hR, hD⟩ := inv_reaches f s hreach
  obtain ⟨r0, hr0⟩ := hdone ⟨0, by omega⟩
  rcases hflight : s.flight with _ | o
  · have h2 := (hN hflight).2 ⟨0, by omega⟩
    rw [hr0] at h2
    exact absurd h2 (by simp)
  · cases o with
    | none =>
      exact absurd hr0 ((hR hflight).2.2 ⟨0, by omega⟩ r0)
    | some rr =>
      obtain ⟨hrr, hcnt, _, hret⟩ := hD rr hflight
      exact ⟨hcnt, fun i r hi => hret i r hi⟩

/-- Witness for `dedup_exactly_once`: two callers, result stream
`sfDemoF` (the identity).  The interleaving registers caller 0, lets
caller 1 find the in-flight call and wait, completes caller 0's
execution, and wakes caller 1; both return result 0 = `sfDemoF 0`, and
the execution counter is 1. -/
theorem dedup_exactly_once_witness :
    1 ≤ 2 ∧ Reaches sfDemoF (initState 2 Nat) sfDemoFinal ∧
      (∀ i : Fin 2, ∃ r, sfDemoFinal.phases i = Phase.returned r) ∧
      (sfDemoFinal.execCount = 1 ∧
        ∀ (i : Fin 2) (r : Nat),
          sfDemoFinal.phases i = Phase.returned r → r = sfDemoF 0) := by
  have hchain4 := Relation.ReflTransGen.tail (Relation.ReflTransGen.tail
    (Relation.ReflTransGen.tail
      (Relation.ReflTransGen.single
        (@Step.register 2 Nat sfDemoF (initState 2 Nat) 0 rfl rfl))
      (Step.found _ 1 none rfl rfl))
    (Step.finish _ 0 rfl))
    (Step.wake _ 1 0 rfl rfl)
  have hcast : ∀ (s4 : SFState 2 Nat), Reaches sfDemoF (initState 2 Nat) s4 →
      s4 = sfDemoFinal → Reaches sfDemoF (initState 2 Nat) sfDemoFinal :=
    fun s4 hr hEq => hEq ▸ hr
  have hchain : Reaches sfDemoF (initState 2 Nat) sfDemoFinal := by
    refine hcast _ hchain4 ?_
    simp only [sfDemoFinal, SFState.mk.injEq]
    refine ⟨rfl, rfl, ?_⟩
    funext i
    fin_cases i <;> rfl
  have hdone : ∀ i : Fin 2, ∃ r, sfDemoFinal.phases i = Phase.returned r :=
    fun i => ⟨0, rfl⟩
  exact ⟨by omega, hchain, hdone,
    dedup_exactly_once sfDemoF sfDemoFinal (by omega) hchain hdone⟩

end Singleflight
